import Mathlib

/-!
Verification development for the Nexus → Reposilite mirror/export tool
(`nexus3_exporter.py`).  The Python source is shallowly embedded below:
pure record-processing code becomes Lean functions, HTTP traffic is
modelled by explicit response values handed to the functions, and the
mutable statistics object becomes explicit state passing.
-/

set_option autoImplicit false

namespace MirrorExport

/-! ## Path segmentation

Python's `path.split('/')` (no limit argument): splitting on every
slash, an empty string yields `[""]`.  Implemented structurally over the
character list so that it evaluates inside the kernel. -/

/-- Character-level split on slash; mirrors Python `str.split('/')`.
The result is always non-empty. -/
def splitChars : List Char → List (List Char)
  | [] => [[]]
  | c :: cs =>
    match splitChars cs with
    | [] => [[c]]
    | s :: ss => if c = '/' then [] :: s :: ss else (c :: s) :: ss

/-- `pathSegs p` is Python's `p.split('/')`. -/
def pathSegs (p : String) : List String :=
  (splitChars p.data).map fun l => ⟨l⟩

/-- Inverse of `splitChars`: rejoin segments with a slash. -/
def joinChars : List (List Char) → List Char
  | [] => []
  | [a] => a
  | a :: b :: rest => a ++ '/' :: joinChars (b :: rest)

/-- Python `os.path.basename` for slash-separated paths: the final
segment of the split. -/
def basenameOf (p : String) : String :=
  (pathSegs p).getLastD ""

/-! ## Strategy A: the cache-warm existence probe
(`request_artifact_in_reposilite`, nexus3_exporter.py:688-712).

The HTTP interaction is modelled by the response the Reposilite session
produces: either a status code, a `requests.Timeout`, or another
`requests.RequestException` carrying a message. -/

inductive ProbeResp where
  | status (code : Nat)
  | timeoutExn
  | requestExn (msg : String)
deriving DecidableEq

/-- The spec's transfer-outcome taxonomy for existence probes. -/
inductive ProbeOutcome where
  | success
  | notFound
  | unauthorized
  | forbidden
  | timedOut
  | otherError (detail : String)
deriving DecidableEq

/-- Exact embedding of `request_artifact_in_reposilite`: the Python
function returns a `(success, message)` pair. -/
def request_artifact_in_reposilite : ProbeResp → Bool × String
  | .status 200 => (true, "Success")
  | .status 404 => (false, "Not found (may not exist in Nexus mirror)")
  | .status 401 => (false, "Authentication required")
  | .status 403 => (false, "Access forbidden")
  | .status n => (false, "HTTP " ++ toString n)
  | .timeoutExn => (false, "Timeout")
  | .requestExn m => (false, "Request error: " ++ m)

/-- The same branch structure read as a spec-level outcome: which
taxonomy entry each branch of `request_artifact_in_reposilite`
corresponds to. -/
def probeOutcome : ProbeResp → ProbeOutcome
  | .status 200 => .success
  | .status 404 => .notFound
  | .status 401 => .unauthorized
  | .status 403 => .forbidden
  | .status n => .otherError ("HTTP " ++ toString n)
  | .timeoutExn => .timedOut
  | .requestExn m => .otherError ("Request error: " ++ m)

/-- Modelled from the claim C1 wording: any 2xx status is `Success`;
404/401/403 as named; any other status is `OtherError` with the code;
timeout is `Timeout`; other transport failure is `OtherError` with the
message. -/
def specClassifyC1 : ProbeResp → ProbeOutcome
  | .status n =>
    if 200 ≤ n ∧ n ≤ 299 then .success
    else if n = 404 then .notFound
    else if n = 401 then .unauthorized
    else if n = 403 then .forbidden
    else .otherError ("HTTP " ++ toString n)
  | .timeoutExn => .timedOut
  | .requestExn m => .otherError ("Request error: " ++ m)

/-- The amended classification: only a status of exactly 200 is
`Success`; every other status apart from 404/401/403 — including the
remaining 2xx codes — is `OtherError` with the code as detail. -/
def amendedClassifyC1 : ProbeResp → ProbeOutcome
  | .status n =>
    if n = 200 then .success
    else if n = 404 then .notFound
    else if n = 401 then .unauthorized
    else if n = 403 then .forbidden
    else .otherError ("HTTP " ++ toString n)
  | .timeoutExn => .timedOut
  | .requestExn m => .otherError ("Request error: " ++ m)

/-! ## Run statistics and the sequential processing loop
(`_process_asset_paths`, nexus3_exporter.py:898-932). -/

structure SyncStats where
  success_count : Nat
  failed_count : Nat
  total_artifacts : Nat
  failed_paths : List (String × String)
deriving DecidableEq

/-- Counters as initialised in `NexusToReposiliteSyncer.__init__`. -/
def initStats : SyncStats := ⟨0, 0, 0, []⟩

/-- The first half of one loop iteration of `_process_asset_paths`:
classify the probe result and bump `success_count` or `failed_count`
(and `failed_paths`).  `total_artifacts` is *not* yet incremented. -/
def bumpOutcome (s : SyncStats) (path : String) (resp : ProbeResp) : SyncStats :=
  let res := request_artifact_in_reposilite resp
  if res.1 then
    { s with success_count := s.success_count + 1 }
  else
    { s with failed_count := s.failed_count + 1
             failed_paths := s.failed_paths ++ [(path, res.2)] }

/-- The subsequent `self.total_artifacts += 1` statement. -/
def bumpTotal (s : SyncStats) : SyncStats :=
  { s with total_artifacts := s.total_artifacts + 1 }

/-- `_process_asset_paths`: fold the per-record statistics updates over
the list of (path, probe response) pairs. -/
def process_asset_paths (s : SyncStats) : List (String × ProbeResp) → SyncStats
  | [] => s
  | (p, r) :: rest => process_asset_paths (bumpTotal (bumpOutcome s p r)) rest

/-- All statistics states observable at Python bytecode boundaries of
the `_process_asset_paths` loop: at each loop head, and between the
outcome-counter increment and the `total_artifacts` increment (a
`KeyboardInterrupt` can be delivered at any of these points). -/
def observedStats (s : SyncStats) : List (String × ProbeResp) → List SyncStats
  | [] => [s]
  | (p, r) :: rest =>
    s :: bumpOutcome s p r :: observedStats (bumpTotal (bumpOutcome s p r)) rest

/-- Statistics states at record boundaries only (loop heads and loop
exit). -/
def boundaryStats (s : SyncStats) : List (String × ProbeResp) → List SyncStats
  | [] => [s]
  | (p, r) :: rest => s :: boundaryStats (bumpTotal (bumpOutcome s p r)) rest

/-! ## Coordinate resolution fallback
(`get_all_gavs_from_nexus`, nexus3_exporter.py:645-659): deriving a
(group, artifact, version) triple from a path by segmentation. -/

/-- The path-segmentation fallback of the coordinate resolver, exactly
as coded: skip empty paths, require at least 4 segments, read
`version = segments[-2]`, `artifact = segments[-3]`,
`group = '.'.join(segments[:-3])`, and keep the triple only when all
three strings are truthy (non-empty). -/
def gavFromPath (path : String) : Option (String × String × String) :=
  if path = "" then none
  else
    let segments := pathSegs path
    if 4 ≤ segments.length then
      let parsed_version := segments.getD (segments.length - 2) ""
      let parsed_artifact_id := segments.getD (segments.length - 3) ""
      let group_parts := segments.take (segments.length - 3)
      let parsed_group_id := String.intercalate "." group_parts
      if parsed_group_id ≠ "" ∧ parsed_artifact_id ≠ "" ∧ parsed_version ≠ "" then
        some (parsed_group_id, parsed_artifact_id, parsed_version)
      else none
    else none

/-- Modelled from the claim C5 wording: fewer than 4 segments fail;
otherwise the coordinate is built from the segments, failing only when
the joined group is empty. -/
def specGavClaimC5 (path : String) : Option (String × String × String) :=
  let segments := pathSegs path
  if segments.length < 4 then none
  else
    let g := String.intercalate "." (segments.take (segments.length - 3))
    if g = "" then none
    else some (g, segments.getD (segments.length - 3) "", segments.getD (segments.length - 2) "")

/-- The amended resolver spec: fewer than 4 segments fail; otherwise
fail whenever the group, the artifact or the version is empty. -/
def specGavAmendedC5 (path : String) : Option (String × String × String) :=
  let segments := pathSegs path
  if segments.length < 4 then none
  else
    let g := String.intercalate "." (segments.take (segments.length - 3))
    let a := segments.getD (segments.length - 3) ""
    let v := segments.getD (segments.length - 2) ""
    if g = "" ∨ a = "" ∨ v = "" then none
    else some (g, a, v)

/-! ## Validator (`validate_sync_completeness`, nexus3_exporter.py:859-896). -/

/-- Response of one validation HEAD probe: a status code or a raised
exception message. -/
inductive VResp where
  | status (code : Nat)
  | exc (msg : String)
deriving DecidableEq

/-- `validate_sync_completeness`, instrumented with the list of paths
actually probed (third component): one pass, one probe per path, 404
collects into `missing_files`, statuses other than 200/304 and
exceptions collect into `validation_errors`. -/
def validate_sync_completeness (probe : String → VResp) :
    List String → List String × List (String × String) × List String
  | [] => ([], [], [])
  | p :: ps =>
    let rest := validate_sync_completeness probe ps
    match probe p with
    | .status n =>
      if n = 404 then (p :: rest.1, rest.2.1, p :: rest.2.2)
      else if n = 200 ∨ n = 304 then (rest.1, rest.2.1, p :: rest.2.2)
      else (rest.1, (p, "HTTP " ++ toString n) :: rest.2.1, p :: rest.2.2)
    | .exc m => (rest.1, (p, m) :: rest.2.1, p :: rest.2.2)

/-! ## Strategy B: parallel filesystem export
(`download_single_asset`, nexus3_exporter.py:714-759). -/

/-- One reconciled download record as built by the enhanced collectors:
`path`, `downloadUrl`, passthrough metadata, declared `size`
(`contentLength`, defaulted to 0) and, for the components API, the
owning component's coordinates. -/
structure DlRec where
  path : String
  downloadUrl : String
  contentType : String
  size : Nat
  component : Option (String × String × String)
deriving DecidableEq

/-- Result of the download GET, when one is issued: a 200 response that
leaves a file of the given size on disk, a non-200 response, or a raised
exception. -/
inductive DlResp where
  | ok (writtenSize : Nat)
  | httpErr (status : Nat) (reason : String)
  | exc (msg : String)
deriving DecidableEq

/-- Per-record outcome of `download_single_asset`, mirroring the
`(success, message)` pairs the Python function returns. -/
inductive DlOutcome where
  | downloaded
  | alreadyExists
  | sizeMismatch (expected actual : Nat)
  | httpFailure (status : Nat) (reason : String)
  | downloadError (msg : String)
deriving DecidableEq

/-- Destination path: mirror `record.path` under the export root when
structure is preserved, else flatten to the basename. -/
def destPath (preserve : Bool) (base path : String) : String :=
  if preserve then base ++ "/" ++ path else base ++ "/" ++ basenameOf path

/-- The network part of `download_single_asset` once a GET is issued. -/
def performDownload (net : DlResp) (r : DlRec) : DlOutcome :=
  match net with
  | .ok written =>
    if 0 < r.size ∧ written ≠ r.size then .sizeMismatch r.size written
    else .downloaded
  | .httpErr s reason => .httpFailure s reason
  | .exc m => .downloadError m

/-- `download_single_asset`: the filesystem is modelled as a partial map
from paths to byte sizes, the network by the `DlResp` the GET would
produce.  Returns the outcome and whether a download request was issued.
If the destination exists with exactly the declared (positive) size the
function short-circuits before any request. -/
def download_single_asset (preserve : Bool) (fs : String → Option Nat)
    (net : DlResp) (base : String) (r : DlRec) : DlOutcome × Bool :=
  let dest := destPath preserve base r.path
  match fs dest with
  | some existing =>
    if existing = r.size ∧ 0 < r.size then (.alreadyExists, false)
    else (performDownload net r, true)
  | none => (performDownload net r, true)

/-! ## Inventory source adapters
(`get_all_asset_paths_from_nexus` at nexus3_exporter.py:295-368,
`get_all_download_info_from_assets_api` at 437-511,
`get_all_download_info_from_components_api` at 513-593).

All three share the same pagination loop: request a page, abort with the
accumulated partial result on a non-200 status or on an exception or
malformed body, otherwise collect the page's items and continue exactly
when the response carries a `continuationToken`.  The server's behaviour
is modelled as the sequence of responses it produces. -/

/-- One raw asset object as the Nexus JSON exposes it; absent keys are
`none`, and Python truthiness tests (`asset.get('path')`) treat the
empty string like an absent key. -/
structure RawAsset where
  path : Option String
  downloadUrl : Option String
  contentType : Option String
  contentLength : Option Nat
deriving DecidableEq

/-- Python truthiness of `dict.get(key)` for a string field. -/
def truthyStr : Option String → Bool
  | some s => s ≠ ""
  | none => false

/-- One raw component of the components API, carrying nested assets. -/
structure NxComponent where
  group : String
  name : String
  version : String
  assets : List RawAsset
deriving DecidableEq

/-- One page response: a 200 with parsed items and optional
continuation token, or one of the failure modes that break the loop. -/
inductive PageResp (α : Type) where
  | ok (items : List α) (continuationToken : Option String)
  | httpError (status : Nat)
  | badJson
  | connError (msg : String)
  | timedOutPage
deriving DecidableEq

/-- Whether a page response takes one of the loop-breaking error
branches. -/
def isErrPage {α : Type} : PageResp α → Bool
  | .ok _ _ => false
  | _ => true

/-- The shared pagination loop: consume responses in order, extract each
successful page's items, stop when the token is absent, and return the
partial accumulation on any error page. -/
def runPages {α β : Type} (extract : List α → List β) : List (PageResp α) → List β
  | [] => []
  | .ok items tok :: rest =>
    (match tok with
     | none => extract items
     | some _ => extract items ++ runPages extract rest)
  | _ :: _ => []

/-- Per-page extraction of `get_all_asset_paths_from_nexus`: keep
`asset['path']` for every asset whose `path` is truthy. -/
def extractAssetPaths (items : List RawAsset) : List String :=
  items.filterMap fun a => if truthyStr a.path then a.path else none

/-- `get_all_asset_paths_from_nexus` over a modelled response
sequence. -/
def get_all_asset_paths_from_nexus : List (PageResp RawAsset) → List String :=
  runPages extractAssetPaths

/-- Per-page extraction of `get_all_download_info_from_assets_api`:
keep assets whose `path` and `downloadUrl` are both truthy, building the
download-info record with defaulted metadata. -/
def collectAssetItems (items : List RawAsset) : List DlRec :=
  items.filterMap fun a =>
    if truthyStr a.path && truthyStr a.downloadUrl then
      some { path := a.path.getD "", downloadUrl := a.downloadUrl.getD ""
             contentType := a.contentType.getD "", size := a.contentLength.getD 0
             component := none }
    else none

/-- `get_all_download_info_from_assets_api` over a modelled response
sequence. -/
def get_all_download_info_from_assets_api : List (PageResp RawAsset) → List DlRec :=
  runPages collectAssetItems

/-- Per-page extraction of `get_all_download_info_from_components_api`:
flatten each component's assets, with the same truthiness guard, and
record the owning component's coordinates. -/
def collectComponentItems (comps : List NxComponent) : List DlRec :=
  comps.flatMap fun c =>
    c.assets.filterMap fun a =>
      if truthyStr a.path && truthyStr a.downloadUrl then
        some { path := a.path.getD "", downloadUrl := a.downloadUrl.getD ""
               contentType := a.contentType.getD "", size := a.contentLength.getD 0
               component := some (c.group, c.name, c.version) }
      else none

/-- `get_all_download_info_from_components_api` over a modelled response
sequence. -/
def get_all_download_info_from_components_api : List (PageResp NxComponent) → List DlRec :=
  runPages collectComponentItems

/-! ## Reconciler
(`sync_all_artifacts` merge at nexus3_exporter.py:968-983 and
`sync_all_artifacts_enhanced` merge at 1074-1099). -/

/-- The loop body of the enhanced merge: walk `all_info`, keeping a
record exactly when its path has not been seen yet. -/
def dedupeGo (seen : List String) : List DlRec → List DlRec
  | [] => []
  | r :: rs =>
    if seen.contains r.path then dedupeGo seen rs
    else r :: dedupeGo (r.path :: seen) rs

/-- The enhanced merge of `sync_all_artifacts_enhanced`: first-seen-wins
deduplication by path over the concatenated record lists. -/
def dedupeByPath (l : List DlRec) : List DlRec :=
  dedupeGo [] l

/-- A valid enumeration of a Python `set` built from a list: some list
with exactly the distinct elements, in an order the set implementation
(hash seed, insertion history) chooses. -/
def SetEnumSpec (e : List String → List String) : Prop :=
  ∀ l, (e l).Nodup ∧ ∀ x, x ∈ e l ↔ x ∈ l

/-- The basic pipeline's merge `list(set(a + b))`
(nexus3_exporter.py:970), parametrised by the set's enumeration
order. -/
def combineBasic (e : List String → List String) (xs ys : List String) : List String :=
  e (xs ++ ys)

/-- One possible set enumeration: first occurrences in list order. -/
def pySetOrderA : List String → List String := fun l => l.dedup

/-- Another possible set enumeration: the same elements reversed. -/
def pySetOrderB : List String → List String := fun l => l.dedup.reverse

/-! ## The enhanced pipeline's consumption of the merged record set
(`sync_all_artifacts_enhanced`, nexus3_exporter.py:1109-1131): the
export worker pool, the Reposilite cache-warm loop, the validation pass
and the statistics all draw solely on `download_info`. -/

/-- What one enhanced run acts on, as a function of the two adapter
outputs. -/
structure PipelineActions where
  exported : List DlRec
  cacheWarmPaths : List String
  validationPaths : List String
  statsTotal : Nat
deriving DecidableEq

/-- The record set each phase of `sync_all_artifacts_enhanced` receives:
`download_info` is the deduplicated concatenation, the cache-warm and
validation phases receive `[info['path'] for info in download_info]`,
and the export statistics are sized by `len(download_info)`. -/
def enhancedPipeline (xs ys : List DlRec) : PipelineActions :=
  let download_info := dedupeByPath (xs ++ ys)
  { exported := download_info
    cacheWarmPaths := download_info.map DlRec.path
    validationPaths := download_info.map DlRec.path
    statsTotal := download_info.length }

/-! ## Tree builder (`_build_tree_from_paths`, nexus3_exporter.py:1298-1307).

A Python dict node is either `None` (a file marker) or a nested dict;
dicts are modelled as insertion-ordered association lists.  The loop

    d = tree
    for part in parts[:-1]:
        d = d.setdefault(part, {})
    d[parts[-1]] = None

walks/creates directory nodes and raises a `TypeError` (modelled as
`none`) when `d.setdefault` returns the file marker `None`, i.e. when a
previously inserted path is a proper segment-prefix of the current
one. -/

/-- Lexicographic less-or-equal on character lists (code-point order),
the order Python's `sorted` uses on strings.  Structural, so it
evaluates inside the kernel. -/
def leB : List Char → List Char → Bool
  | [], _ => true
  | _ :: _, [] => false
  | a :: as, b :: bs => if a = b then leB as bs else decide (a < b)

/-- Python's string order. -/
def strLe (a b : String) : Prop := leB a.data b.data = true

instance decStrLe : DecidableRel strLe := fun a b => by
  unfold strLe; infer_instance

/-- Python `sorted` on strings. -/
def pySorted (l : List String) : List String :=
  List.insertionSort strLe l

inductive Node where
  | file : Node
  | dir (children : List (String × Node)) : Node

/-- First-match lookup in a dict's association list. -/
def lookupEntry : List (String × Node) → String → Option Node
  | [], _ => none
  | (k, v) :: rest, key => if k = key then some v else lookupEntry rest key

/-- Dict assignment: replace the binding in place, or append a new
one (Python dicts keep insertion order). -/
def setEntry : List (String × Node) → String → Node → List (String × Node)
  | [], key, v => [(key, v)]
  | (k, w) :: rest, key, v =>
    if k = key then (k, v) :: rest else (k, w) :: setEntry rest key v

/-- Insert one split path into a dict: descend/create directories along
all but the last segment — failing (`none`, the raised `TypeError`) when
the walk meets a file marker — then assign the file marker at the last
segment, overwriting any existing binding. -/
def insertSegsD : List (String × Node) → List String → Option (List (String × Node))
  | _, [] => none
  | cs, [last] => some (setEntry cs last .file)
  | cs, p :: q :: rest =>
    match lookupEntry cs p with
    | some (.dir cs') =>
      (insertSegsD cs' (q :: rest)).map fun cs'' => setEntry cs p (.dir cs'')
    | some .file => none
    | none =>
      (insertSegsD [] (q :: rest)).map fun cs'' => setEntry cs p (.dir cs'')

/-- The `for path in sorted(paths)` loop body over an already-sorted
list; an exception aborts the whole build. -/
def foldIns : List (String × Node) → List String → Option (List (String × Node))
  | cs, [] => some cs
  | cs, p :: rest =>
    match insertSegsD cs (pathSegs p) with
    | none => none
    | some cs' => foldIns cs' rest

/-- `_build_tree_from_paths`: sort the paths, then insert each in
order, starting from the empty dict. -/
def build_tree_from_paths (paths : List String) : Option (List (String × Node)) :=
  foldIns [] (pySorted paths)

/-- `LeafIn cs q`: the segment list `q` addresses a terminal (`None`)
leaf of the dict `cs`. -/
inductive LeafIn : List (String × Node) → List String → Prop where
  | here {cs : List (String × Node)} {k : String} :
      (k, Node.file) ∈ cs → LeafIn cs [k]
  | deeper {cs : List (String × Node)} {k : String} {cs' : List (String × Node)}
      {q : List String} :
      (k, Node.dir cs') ∈ cs → LeafIn cs' q → LeafIn cs (k :: q)

/-- Well-formedness of a dict: keys are distinct, recursively. -/
inductive WFE : List (String × Node) → Prop where
  | mk (cs : List (String × Node)) : (cs.map Prod.fst).Nodup →
      (∀ k cs', (k, Node.dir cs') ∈ cs → WFE cs') → WFE cs

/-- `Below a b`: segment list `a` is a proper leading run of `b` —
i.e. the path `a` represents is a proper '/'-delimited leading part of
the path `b` represents. -/
def Below (a b : List String) : Prop := a ≠ b ∧ a <+: b

instance decBelow (a b : List String) : Decidable (Below a b) := by
  unfold Below; infer_instance

/-- No path in the list is a proper '/'-delimited leading part of
another. -/
def NoNesting (paths : List String) : Prop :=
  paths.Pairwise fun p q =>
    ¬ Below (pathSegs p) (pathSegs q) ∧ ¬ Below (pathSegs q) (pathSegs p)

instance decNoNesting (paths : List String) : Decidable (NoNesting paths) := by
  unfold NoNesting; infer_instance

/-! ## Helper lemmas -/

theorem find?_append_of_isSome {α : Type} (pred : α → Bool) (xs ys : List α)
    (h : (xs.find? pred).isSome) :
    (xs ++ ys).find? pred = xs.find? pred := by
  induction xs with
  | nil => simp at h
  | cons a rest ih =>
    by_cases ha : pred a = true
    · simp [List.find?_cons_of_pos _ ha]
    · rw [List.cons_append, List.find?_cons_of_neg _ ha, List.find?_cons_of_neg _ ha]
      rw [List.find?_cons_of_neg _ ha] at h
      exact ih h

theorem dedupeGo_length (seen : List String) (l : List DlRec) :
    (dedupeGo seen l).length = ((l.map DlRec.path).toFinset \ seen.toFinset).card := by
  induction l generalizing seen with
  | nil => simp [dedupeGo]
  | cons r rs ih =>
    by_cases hmem : r.path ∈ seen
    · have hc : seen.contains r.path = true := by simpa using hmem
      rw [dedupeGo]
      simp only [hc, if_true]
      rw [ih seen]
      congr 1
      ext x
      simp only [List.map_cons, List.toFinset_cons, Finset.mem_sdiff, Finset.mem_insert,
        List.mem_toFinset]
      constructor
      · rintro ⟨hx, hns⟩; exact ⟨Or.inr hx, hns⟩
      · rintro ⟨hx | hx, hns⟩
        · subst hx; exact absurd hmem hns
        · exact ⟨hx, hns⟩
    · have hc : seen.contains r.path = false := by simpa using hmem
      rw [dedupeGo]
      simp only [hc, Bool.false_eq_true, if_false, List.length_cons]
      rw [ih (r.path :: seen)]
      have hset : ((r :: rs).map DlRec.path).toFinset \ seen.toFinset
          = insert r.path (((rs.map DlRec.path).toFinset \ (r.path :: seen).toFinset)) := by
        ext x
        simp only [List.map_cons, List.toFinset_cons, Finset.mem_sdiff, Finset.mem_insert,
          List.mem_toFinset, List.mem_cons]
        constructor
        · rintro ⟨hx | hx, hns⟩
          · exact Or.inl hx
          · by_cases hxr : x = r.path
            · exact Or.inl hxr
            · exact Or.inr ⟨hx, fun h => h.elim hxr hns⟩
        · rintro (hx | ⟨hx, hns⟩)
          · subst hx; exact ⟨Or.inl rfl, hmem⟩
          · exact ⟨Or.inr hx, fun h => hns (Or.inr h)⟩
      rw [hset, Finset.card_insert_of_not_mem (by simp)]

theorem dedupeGo_find (seen : List String) (l : List DlRec) (q : String)
    (hq : q ∉ seen) :
    (dedupeGo seen l).find? (fun r => r.path == q) = l.find? (fun r => r.path == q) := by
  induction l generalizing seen with
  | nil => rfl
  | cons r rs ih =>
    by_cases hmem : r.path ∈ seen
    · have hc : seen.contains r.path = true := by simpa using hmem
      have hne : ¬ (((fun r : DlRec => r.path == q) r) = true) := by
        simp only [beq_iff_eq]
        intro h; exact hq (h ▸ hmem)
      rw [dedupeGo]
      simp only [hc, if_true]
      rw [List.find?_cons_of_neg (p := fun r => r.path == q) rs hne]
      exact ih seen hq
    · have hc : seen.contains r.path = false := by simpa using hmem
      rw [dedupeGo]
      simp only [hc, Bool.false_eq_true, if_false]
      by_cases hrq : r.path = q
      · rw [List.find?_cons_of_pos (p := fun r => r.path == q)
            (dedupeGo (r.path :: seen) rs) (by simp [hrq]),
          List.find?_cons_of_pos (p := fun r => r.path == q) rs (by simp [hrq])]
      · rw [List.find?_cons_of_neg (p := fun r => r.path == q)
            (dedupeGo (r.path :: seen) rs) (by simp [hrq]),
          List.find?_cons_of_neg (p := fun r => r.path == q) rs (by simp [hrq])]
        exact ih (r.path :: seen) (by simp [hq, Ne.symm hrq])

theorem runPages_okPages {α β : Type} (extract : List α → List β)
    (pages : List (List α × String)) (rest : List (PageResp α)) :
    runPages extract ((pages.map fun pg => PageResp.ok pg.1 (some pg.2)) ++ rest)
      = (pages.map fun pg => extract pg.1).flatten ++ runPages extract rest := by
  induction pages with
  | nil => simp
  | cons pg pgs ih => simp [runPages, ih]

theorem runPages_lastPage {α β : Type} (extract : List α → List β)
    (items : List α) (junk : List (PageResp α)) :
    runPages extract (PageResp.ok items none :: junk) = extract items := rfl

theorem runPages_errPage {α β : Type} (extract : List α → List β)
    (err : PageResp α) (h : isErrPage err = true) (junk : List (PageResp α)) :
    runPages extract (err :: junk) = [] := by
  cases err <;> simp_all [runPages, isErrPage]

theorem runPages_congr_mid {α β : Type} (extract : List α → List β)
    (l₁ : List (PageResp α)) (items items' : List α) (tok : Option String)
    (l₂ : List (PageResp α)) (h : extract items = extract items') :
    runPages extract (l₁ ++ .ok items tok :: l₂)
      = runPages extract (l₁ ++ .ok items' tok :: l₂) := by
  induction l₁ with
  | nil => cases tok <;> simp [runPages, h]
  | cons x l₁ ih =>
    cases x with
    | ok its t => cases t <;> simp [runPages, ih]
    | httpError s => simp [runPages]
    | badJson => simp [runPages]
    | connError m => simp [runPages]
    | timedOutPage => simp [runPages]

theorem runPages_mem {α β : Type} (extract : List α → List β)
    (P : β → Prop) (hP : ∀ its b, b ∈ extract its → P b) :
    ∀ (resps : List (PageResp α)) (b : β), b ∈ runPages extract resps → P b := by
  intro resps
  induction resps with
  | nil => intro b hb; simp [runPages] at hb
  | cons x rest ih =>
    intro b hb
    cases x with
    | ok its t =>
      cases t with
      | none => exact hP its b (by simpa [runPages] using hb)
      | some tk =>
        rw [runPages] at hb
        rcases List.mem_append.mp hb with h | h
        · exact hP its b h
        · exact ih b h
    | httpError s => simp [runPages] at hb
    | badJson => simp [runPages] at hb
    | connError m => simp [runPages] at hb
    | timedOutPage => simp [runPages] at hb

theorem extractAssetPaths_length (items : List RawAsset)
    (h : ∀ a ∈ items, truthyStr a.path = true) :
    (extractAssetPaths items).length = items.length := by
  induction items with
  | nil => rfl
  | cons a rest ih =>
    have ha := h a (List.mem_cons_self _ _)
    have hrest := ih fun b hb => h b (List.mem_cons_of_mem _ hb)
    cases hp : a.path with
    | none => simp [truthyStr, hp] at ha
    | some s =>
      rw [hp] at ha
      simp only [extractAssetPaths, List.filterMap_cons, hp, ha, if_true] at hrest ⊢
      simp [hrest]

theorem guard_mem_truthy (a : RawAsset) (r : DlRec)
    (comp : Option (String × String × String))
    (h : (if truthyStr a.path && truthyStr a.downloadUrl then
            some { path := a.path.getD "", downloadUrl := a.downloadUrl.getD ""
                   contentType := a.contentType.getD "", size := a.contentLength.getD 0
                   component := comp }
          else none) = some r) :
    r.path ≠ "" ∧ r.downloadUrl ≠ "" := by
  by_cases h1 : truthyStr a.path && truthyStr a.downloadUrl
  · rw [if_pos h1] at h
    obtain ⟨h1p, h1d⟩ := Bool.and_eq_true _ _ ▸ h1
    injection h with h
    subst h
    cases hp : a.path with
    | none => rw [hp] at h1p; simp [truthyStr] at h1p
    | some s =>
      cases hd : a.downloadUrl with
      | none => rw [hd] at h1d; simp [truthyStr] at h1d
      | some t =>
        rw [hp] at h1p; rw [hd] at h1d
        simp only [truthyStr] at h1p h1d
        simp only [hp, hd, Option.getD_some]
        exact ⟨by simpa using h1p, by simpa using h1d⟩
  · rw [if_neg h1] at h; exact absurd h (by simp)

theorem collectAssetItems_drop (a : RawAsset)
    (hbad : truthyStr a.path = false ∨ truthyStr a.downloadUrl = false)
    (pre post : List RawAsset) :
    collectAssetItems (pre ++ a :: post) = collectAssetItems (pre ++ post) := by
  unfold collectAssetItems
  rw [List.filterMap_append, List.filterMap_append]
  congr 1
  rw [List.filterMap_cons]
  rcases hbad with h | h <;> simp [h]

theorem collectComponentItems_drop (a : RawAsset)
    (hbad : truthyStr a.path = false ∨ truthyStr a.downloadUrl = false)
    (cpre cpost : List NxComponent) (g n v : String) (apre apost : List RawAsset) :
    collectComponentItems (cpre ++ ⟨g, n, v, apre ++ a :: apost⟩ :: cpost)
      = collectComponentItems (cpre ++ ⟨g, n, v, apre ++ apost⟩ :: cpost) := by
  unfold collectComponentItems
  rw [List.flatMap_append, List.flatMap_append, List.flatMap_cons, List.flatMap_cons]
  congr 2
  rw [List.filterMap_append, List.filterMap_append]
  congr 1
  rw [List.filterMap_cons]
  rcases hbad with h | h <;> simp [h]

theorem collectAssetItems_mem (its : List RawAsset) (r : DlRec)
    (hin : r ∈ collectAssetItems its) : r.path ≠ "" ∧ r.downloadUrl ≠ "" := by
  unfold collectAssetItems at hin
  obtain ⟨b, hb, hbr⟩ := List.mem_filterMap.mp hin
  exact guard_mem_truthy b r none hbr

theorem collectComponentItems_mem (comps : List NxComponent) (r : DlRec)
    (hin : r ∈ collectComponentItems comps) : r.path ≠ "" ∧ r.downloadUrl ≠ "" := by
  unfold collectComponentItems at hin
  obtain ⟨c, hc, hcr⟩ := List.mem_flatMap.mp hin
  obtain ⟨b, hb, hbr⟩ := List.mem_filterMap.mp hcr
  exact guard_mem_truthy b r (some (c.group, c.name, c.version)) hbr

theorem stats_invariant_aux :
    ∀ (records : List (String × ProbeResp)) (s : SyncStats),
      s.success_count + s.failed_count = s.total_artifacts →
      (∀ s' ∈ boundaryStats s records,
          s'.success_count + s'.failed_count = s'.total_artifacts)
      ∧ (∀ s' ∈ observedStats s records,
          s'.success_count + s'.failed_count ≤ s'.total_artifacts + 1) := by
  intro records
  induction records with
  | nil =>
    intro s hs
    constructor <;> intro s' hs' <;> simp [boundaryStats, observedStats] at hs' <;>
      subst hs' <;> omega
  | cons pr rest ih =>
    intro s hs
    obtain ⟨p, r⟩ := pr
    have hmid : (bumpOutcome s p r).success_count + (bumpOutcome s p r).failed_count
        = (bumpOutcome s p r).total_artifacts + 1 := by
      unfold bumpOutcome
      by_cases h : (request_artifact_in_reposilite r).1 <;> simp [h] <;> omega
    have hnext : (bumpTotal (bumpOutcome s p r)).success_count
          + (bumpTotal (bumpOutcome s p r)).failed_count
        = (bumpTotal (bumpOutcome s p r)).total_artifacts := by
      unfold bumpTotal
      simp
      omega
    obtain ⟨ihb, iho⟩ := ih (bumpTotal (bumpOutcome s p r)) hnext
    constructor
    · intro s' hs'
      rw [boundaryStats] at hs'
      rcases List.mem_cons.mp hs' with h | h
      · subst h; exact hs
      · exact ihb s' h
    · intro s' hs'
      rw [observedStats] at hs'
      rcases List.mem_cons.mp hs' with h | hs'
      · subst h; omega
      rcases List.mem_cons.mp hs' with h | h
      · subst h; omega
      · exact iho s' h

theorem splitChars_ne_nil (l : List Char) : splitChars l ≠ [] := by
  cases l with
  | nil => simp [splitChars]
  | cons c cs =>
    rw [splitChars]
    rcases h : splitChars cs with _ | ⟨s, ss⟩
    · simp
    · by_cases hc : c = '/' <;> simp [hc]

theorem pathSegs_ne_nil (p : String) : pathSegs p ≠ [] := by
  unfold pathSegs
  intro h
  exact splitChars_ne_nil p.data (List.map_eq_nil_iff.mp h)

theorem joinChars_splitChars (l : List Char) : joinChars (splitChars l) = l := by
  induction l with
  | nil => rfl
  | cons c cs ih =>
    rw [splitChars]
    rcases h : splitChars cs with _ | ⟨s, ss⟩
    · exact absurd h (splitChars_ne_nil cs)
    · rw [h] at ih
      by_cases hc : c = '/'
      · subst hc
        simp only [if_pos rfl, joinChars]
        rw [ih]
        rfl
      · simp only [if_neg hc]
        cases ss with
        | nil => simpa [joinChars] using congrArg (c :: ·) ih
        | cons s₂ ss₂ => simpa [joinChars] using congrArg (c :: ·) ih

theorem splitChars_slash_append (u v : List Char) :
    splitChars (u ++ '/' :: v) = splitChars u ++ splitChars v := by
  induction u with
  | nil =>
    rw [List.nil_append, splitChars]
    rcases h : splitChars v with _ | ⟨s, ss⟩
    · exact absurd h (splitChars_ne_nil v)
    · rw [splitChars, h]
      simp
  | cons c cs ih =>
    rw [List.cons_append, splitChars, ih]
    rcases h : splitChars cs with _ | ⟨s, ss⟩
    · exact absurd h (splitChars_ne_nil cs)
    · rcases hv : splitChars v with _ | ⟨t, ts⟩
      · exact absurd hv (splitChars_ne_nil v)
      · rw [splitChars, h]
        by_cases hc : c = '/' <;> simp [hc]

theorem joinChars_append (A B : List (List Char)) (hA : A ≠ []) (hB : B ≠ []) :
    joinChars (A ++ B) = joinChars A ++ '/' :: joinChars B := by
  induction A with
  | nil => exact absurd rfl hA
  | cons a A' ih =>
    cases A' with
    | nil =>
      cases B with
      | nil => exact absurd rfl hB
      | cons b B' => simp [joinChars]
    | cons a₂ A₂ =>
      rw [show (a :: a₂ :: A₂) ++ B = a :: a₂ :: (A₂ ++ B) from rfl, joinChars,
        show a₂ :: (A₂ ++ B) = (a₂ :: A₂) ++ B from rfl, ih (by simp), joinChars]
      simp

theorem data_mk (l : List Char) : (String.mk l).data = l := rfl

theorem pathSegs_slash_append (p r : String) :
    pathSegs (p ++ "/" ++ r) = pathSegs p ++ pathSegs r := by
  unfold pathSegs
  have hdata : (p ++ "/" ++ r).data = p.data ++ '/' :: r.data := by
    simp [String.data_append]
  rw [hdata, splitChars_slash_append, List.map_append]

theorem below_of_slash_append (p r : String) :
    Below (pathSegs p) (pathSegs (p ++ "/" ++ r)) := by
  rw [pathSegs_slash_append]
  constructor
  · intro h
    have := congrArg List.length h
    simp at this
    exact pathSegs_ne_nil r this
  · exact ⟨pathSegs r, rfl⟩

theorem exists_slash_append_of_below (x p : String)
    (h : Below (pathSegs x) (pathSegs p)) : ∃ r, p = x ++ "/" ++ r := by
  obtain ⟨hne, t, ht⟩ := h
  have htne : t ≠ [] := by
    rintro rfl
    exact hne (by simpa using ht)
  -- transport to character-list level
  have hmap : ∀ L : List (List Char),
      List.map String.data (List.map (fun l => String.mk l) L) = L := by
    intro L
    induction L with
    | nil => rfl
    | cons a t₂ ih => simp only [List.map_cons, data_mk, ih]
  have hx : splitChars x.data ++ t.map String.data = splitChars p.data := by
    have h2 := congrArg (List.map String.data) ht
    rw [pathSegs, pathSegs, List.map_append, hmap, hmap] at h2
    exact h2
  have hjoin : p.data = x.data ++ '/' :: joinChars (t.map String.data) := by
    calc p.data = joinChars (splitChars p.data) := (joinChars_splitChars _).symm
    _ = joinChars (splitChars x.data ++ t.map String.data) := by rw [hx]
    _ = joinChars (splitChars x.data) ++ '/' :: joinChars (t.map String.data) :=
        joinChars_append _ _ (splitChars_ne_nil _) (by simpa using htne)
    _ = x.data ++ '/' :: joinChars (t.map String.data) := by rw [joinChars_splitChars]
  refine ⟨String.mk (joinChars (t.map String.data)), ?_⟩
  apply String.ext
  simp [String.data_append, hjoin]

theorem leB_total : ∀ u v, leB u v = true ∨ leB v u = true
  | [], _ => Or.inl rfl
  | _ :: _, [] => Or.inr rfl
  | a :: as, b :: bs => by
    by_cases hab : a = b
    · subst hab
      simpa [leB] using leB_total as bs
    · rcases lt_trichotomy a b with h | h | h
      · exact Or.inl (by simp [leB, hab, h])
      · exact absurd h hab
      · exact Or.inr (by simp [leB, Ne.symm hab, h])

theorem leB_trans : ∀ u v w, leB u v = true → leB v w = true → leB u w = true
  | [], _, _, _, _ => rfl
  | a :: as, [], _, h, _ => by simp [leB] at h
  | a :: as, b :: bs, [], _, h => by simp [leB] at h
  | a :: as, b :: bs, c :: cs, h1, h2 => by
    by_cases hab : a = b
    · subst hab
      by_cases hbc : a = c
      · subst hbc
        rw [leB, if_pos rfl] at h1 h2 ⊢
        exact leB_trans as bs cs h1 h2
      · rw [leB, if_pos rfl] at h1
        rw [leB, if_neg hbc] at h2 ⊢
        exact h2
    · rw [leB, if_neg hab] at h1
      have hlt1 : a < b := of_decide_eq_true h1
      by_cases hbc : b = c
      · subst hbc
        rw [leB, if_neg hab]
        exact decide_eq_true hlt1
      · rw [leB, if_neg hbc] at h2
        have hlt2 : b < c := of_decide_eq_true h2
        have hac : a < c := lt_trans hlt1 hlt2
        rw [leB, if_neg (ne_of_lt hac)]
        exact decide_eq_true hac

theorem leB_antisymm : ∀ u v, leB u v = true → leB v u = true → u = v
  | [], [], _, _ => rfl
  | [], _ :: _, _, h => by simp [leB] at h
  | _ :: _, [], h, _ => by simp [leB] at h
  | a :: as, b :: bs, h1, h2 => by
    by_cases hab : a = b
    · subst hab
      rw [leB, if_pos rfl] at h1 h2
      rw [leB_antisymm as bs h1 h2]
    · rw [leB, if_neg hab] at h1
      rw [leB, if_neg (Ne.symm hab)] at h2
      exact absurd (of_decide_eq_true h2) (not_lt_of_lt (of_decide_eq_true h1))

theorem leB_append_self : ∀ u z, leB u (u ++ z) = true
  | [], _ => rfl
  | a :: as, z => by
    rw [List.cons_append, leB, if_pos rfl]
    exact leB_append_self as z

theorem strLe_antisymm (a b : String) (h1 : strLe a b) (h2 : strLe b a) : a = b :=
  String.ext (leB_antisymm a.data b.data h1 h2)

theorem strLe_of_slash_append (p r : String) : strLe p (p ++ "/" ++ r) := by
  unfold strLe
  rw [(by simp [String.data_append] : (p ++ "/" ++ r).data = p.data ++ '/' :: r.data)]
  exact leB_append_self p.data ('/' :: r.data)

theorem below_strLe_absurd (a b : String)
    (hb : Below (pathSegs a) (pathSegs b)) (hle : strLe b a) : False := by
  obtain ⟨r, rfl⟩ := exists_slash_append_of_below a b hb
  have heq := strLe_antisymm _ _ hle (strLe_of_slash_append a r)
  have hdata := congrArg String.data heq
  rw [(by simp [String.data_append] : (a ++ "/" ++ r).data = a.data ++ '/' :: r.data)] at hdata
  have := congrArg List.length hdata
  simp at this

theorem pySorted_sorted (l : List String) : (pySorted l).Sorted strLe := by
  haveI : IsTotal String strLe := ⟨fun a b => leB_total a.data b.data⟩
  haveI : IsTrans String strLe := ⟨fun a b c => leB_trans a.data b.data c.data⟩
  exact List.sorted_insertionSort strLe l

theorem pySorted_perm (l : List String) : List.Perm (pySorted l) l :=
  List.perm_insertionSort strLe l

theorem WFE_nil : WFE [] :=
  WFE.mk [] (by simp) (by simp)

theorem WFE.nodupKeys {cs : List (String × Node)} (h : WFE cs) :
    (cs.map Prod.fst).Nodup := by
  cases h with | mk _ hn _ => exact hn

theorem WFE.child {cs : List (String × Node)} (h : WFE cs) {k : String}
    {cs' : List (String × Node)} (hm : (k, Node.dir cs') ∈ cs) : WFE cs' := by
  cases h with | mk _ _ hc => exact hc k cs' hm

theorem lookupEntry_some_of_mem {cs : List (String × Node)} {k : String} {v : Node}
    (hn : (cs.map Prod.fst).Nodup) (hm : (k, v) ∈ cs) : lookupEntry cs k = some v := by
  induction cs with
  | nil => simp at hm
  | cons e rest ih =>
    obtain ⟨k₀, w⟩ := e
    simp only [List.map_cons, List.nodup_cons] at hn
    rcases List.mem_cons.mp hm with h | h
    · injection h with h1 h2
      subst h1
      rw [lookupEntry, if_pos rfl, h2]
    · rw [lookupEntry]
      by_cases hk : k₀ = k
      · subst hk
        exact absurd (List.mem_map.mpr ⟨(k₀, v), h, rfl⟩) hn.1
      · rw [if_neg hk]
        exact ih hn.2 h

theorem mem_of_lookupEntry_some {cs : List (String × Node)} {k : String} {v : Node}
    (h : lookupEntry cs k = some v) : (k, v) ∈ cs := by
  induction cs with
  | nil => simp [lookupEntry] at h
  | cons e rest ih =>
    obtain ⟨k₀, w⟩ := e
    rw [lookupEntry] at h
    by_cases hk : k₀ = k
    · rw [if_pos hk] at h
      injection h with h
      subst hk h
      exact List.mem_cons_self _ _
    · rw [if_neg hk] at h
      exact List.mem_cons_of_mem _ (ih h)

theorem lookupEntry_none_iff {cs : List (String × Node)} {k : String} :
    lookupEntry cs k = none ↔ k ∉ cs.map Prod.fst := by
  induction cs with
  | nil => simp [lookupEntry]
  | cons e rest ih =>
    obtain ⟨k₀, w⟩ := e
    rw [lookupEntry]
    by_cases hk : k₀ = k
    · subst hk
      simp
    · simp [hk, ih, Ne.symm hk]

theorem mem_setEntry {cs : List (String × Node)} {k : String} {v : Node}
    (hn : (cs.map Prod.fst).Nodup) (k' : String) (v' : Node) :
    (k', v') ∈ setEntry cs k v ↔ ((k' = k ∧ v' = v) ∨ (k' ≠ k ∧ (k', v') ∈ cs)) := by
  induction cs with
  | nil =>
    simp only [setEntry, List.mem_singleton, List.not_mem_nil, and_false, or_false,
      Prod.mk.injEq]
  | cons e rest ih =>
    obtain ⟨k₀, w⟩ := e
    simp only [List.map_cons, List.nodup_cons] at hn
    rw [setEntry]
    by_cases hk : k₀ = k
    · subst hk
      rw [if_pos rfl]
      constructor
      · intro hmem
        rcases List.mem_cons.mp hmem with h | h
        · injection h with h1 h2
          exact Or.inl ⟨h1, h2⟩
        · refine Or.inr ⟨?_, List.mem_cons_of_mem _ h⟩
          intro hkk
          subst hkk
          exact hn.1 (List.mem_map.mpr ⟨(k', v'), h, rfl⟩)
      · rintro (⟨h1, h2⟩ | ⟨h1, h2⟩)
        · subst h1 h2
          exact List.mem_cons_self _ _
        · rcases List.mem_cons.mp h2 with h | h
          · injection h with h3 _
            exact absurd h3 h1
          · exact List.mem_cons_of_mem _ h
    · rw [if_neg hk]
      constructor
      · intro hmem
        rcases List.mem_cons.mp hmem with h | h
        · injection h with h1 h2
          subst h1 h2
          exact Or.inr ⟨hk, List.mem_cons_self _ _⟩
        · rcases (ih hn.2).mp h with h | ⟨h1, h2⟩
          · exact Or.inl h
          · exact Or.inr ⟨h1, List.mem_cons_of_mem _ h2⟩
      · rintro (⟨h1, h2⟩ | ⟨h1, h2⟩)
        · subst h1 h2
          exact List.mem_cons_of_mem _ ((ih hn.2).mpr (Or.inl ⟨rfl, rfl⟩))
        · rcases List.mem_cons.mp h2 with h | h
          · exact h ▸ List.mem_cons_self _ _
          · exact List.mem_cons_of_mem _ ((ih hn.2).mpr (Or.inr ⟨h1, h⟩))

theorem keys_setEntry (cs : List (String × Node)) (k : String) (v : Node) :
    (setEntry cs k v).map Prod.fst
      = if k ∈ cs.map Prod.fst then cs.map Prod.fst else cs.map Prod.fst ++ [k] := by
  induction cs with
  | nil => simp [setEntry]
  | cons e rest ih =>
    obtain ⟨k₀, w⟩ := e
    rw [setEntry]
    by_cases hk : k₀ = k
    · subst hk
      simp
    · simp only [if_neg hk, List.map_cons, ih, List.mem_cons]
      by_cases hmem : k ∈ rest.map Prod.fst
      · simp [hmem, Ne.symm hk]
      · simp [hmem, Ne.symm hk]

theorem nodup_keys_setEntry {cs : List (String × Node)} (k : String) (v : Node)
    (hn : (cs.map Prod.fst).Nodup) : ((setEntry cs k v).map Prod.fst).Nodup := by
  rw [keys_setEntry]
  by_cases hmem : k ∈ cs.map Prod.fst
  · simpa [hmem] using hn
  · rw [if_neg hmem]
    rw [List.nodup_append]
    refine ⟨hn, List.nodup_singleton _, fun a ha hb => ?_⟩
    rw [List.mem_singleton] at hb
    exact hmem (hb ▸ ha)

theorem WFE_setEntry_file {cs : List (String × Node)} (h : WFE cs) (k : String) :
    WFE (setEntry cs k Node.file) := by
  refine WFE.mk _ (nodup_keys_setEntry k Node.file h.nodupKeys) ?_
  intro k' cs' hm
  rcases (mem_setEntry h.nodupKeys k' (Node.dir cs')).mp hm with ⟨_, h2⟩ | ⟨_, h2⟩
  · exact absurd h2 (by simp)
  · exact h.child h2

theorem WFE_setEntry_dir {cs : List (String × Node)} (h : WFE cs) (k : String)
    {cs'' : List (String × Node)} (h'' : WFE cs'') :
    WFE (setEntry cs k (Node.dir cs'')) := by
  refine WFE.mk _ (nodup_keys_setEntry k _ h.nodupKeys) ?_
  intro k' cs' hm
  rcases (mem_setEntry h.nodupKeys k' (Node.dir cs')).mp hm with ⟨_, h2⟩ | ⟨_, h2⟩
  · injection h2 with h2
    exact h2 ▸ h''
  · exact h.child h2


theorem not_leafIn_nil (q : List String) : ¬ LeafIn [] q := by
  intro h
  cases h with
  | here hm => simp at hm
  | deeper hm _ => simp at hm

theorem LeafIn.ne_nil {cs : List (String × Node)} {q : List String}
    (h : LeafIn cs q) : q ≠ [] := by
  cases h <;> simp

theorem below_cons_iff (k : String) (a b : List String) :
    Below (k :: a) (k :: b) ↔ Below a b := by
  unfold Below
  rw [List.cons_prefix_cons]
  simp

theorem below_cons_of (k : String) {a b : List String} (h : Below a b) :
    Below (k :: a) (k :: b) := (below_cons_iff k a b).mpr h

theorem insert_wfe :
    ∀ (parts : List String) (cs cs₂ : List (String × Node)),
      WFE cs → insertSegsD cs parts = some cs₂ → WFE cs₂ := by
  intro parts
  induction parts with
  | nil => intro cs cs₂ _ h; simp [insertSegsD] at h
  | cons p tail ih =>
    intro cs cs₂ hwf h
    cases tail with
    | nil =>
      rw [insertSegsD] at h
      injection h with h
      exact h ▸ WFE_setEntry_file hwf p
    | cons q₀ rest =>
      rw [insertSegsD] at h
      split at h
      · rename_i cs' hl
        obtain ⟨cs'', hmap, rfl⟩ := Option.map_eq_some'.mp h
        have hwf' : WFE cs' := hwf.child (mem_of_lookupEntry_some hl)
        exact WFE_setEntry_dir hwf p (ih cs' cs'' hwf' hmap)
      · exact absurd h (by simp)
      · obtain ⟨cs'', hmap, rfl⟩ := Option.map_eq_some'.mp h
        exact WFE_setEntry_dir hwf p (ih [] cs'' WFE_nil hmap)

theorem insert_adds :
    ∀ (parts : List String) (cs cs₂ : List (String × Node)),
      parts ≠ [] → WFE cs → insertSegsD cs parts = some cs₂ → LeafIn cs₂ parts := by
  intro parts
  induction parts with
  | nil => intro cs cs₂ h _ _; exact absurd rfl h
  | cons p tail ih =>
    intro cs cs₂ _ hwf h
    cases tail with
    | nil =>
      rw [insertSegsD] at h
      injection h with h
      subst h
      exact LeafIn.here ((mem_setEntry hwf.nodupKeys p Node.file).mpr (Or.inl ⟨rfl, rfl⟩))
    | cons q₀ rest =>
      rw [insertSegsD] at h
      split at h
      · rename_i cs' hl
        obtain ⟨cs'', hmap, rfl⟩ := Option.map_eq_some'.mp h
        have hwf' : WFE cs' := hwf.child (mem_of_lookupEntry_some hl)
        exact LeafIn.deeper
          ((mem_setEntry hwf.nodupKeys p (Node.dir cs'')).mpr (Or.inl ⟨rfl, rfl⟩))
          (ih cs' cs'' (by simp) hwf' hmap)
      · exact absurd h (by simp)
      · obtain ⟨cs'', hmap, rfl⟩ := Option.map_eq_some'.mp h
        exact LeafIn.deeper
          ((mem_setEntry hwf.nodupKeys p (Node.dir cs'')).mpr (Or.inl ⟨rfl, rfl⟩))
          (ih [] cs'' (by simp) WFE_nil hmap)


theorem insert_leaf_src :
    ∀ (parts : List String) (cs cs₂ : List (String × Node)) (q : List String),
      WFE cs → insertSegsD cs parts = some cs₂ → LeafIn cs₂ q →
      q = parts ∨ LeafIn cs q := by
  intro parts
  induction parts with
  | nil => intro cs cs₂ q _ h _; simp [insertSegsD] at h
  | cons p tail ih =>
    intro cs cs₂ q hwf h hleaf
    cases tail with
    | nil =>
      rw [insertSegsD] at h
      injection h with h
      subst h
      cases hleaf with
      | @here _ k hm =>
        rcases (mem_setEntry hwf.nodupKeys _ _).mp hm with ⟨h1, _⟩ | ⟨h1, h2⟩
        · exact Or.inl (by rw [h1])
        · exact Or.inr (LeafIn.here h2)
      | @deeper _ k c q' hm hq' =>
        rcases (mem_setEntry hwf.nodupKeys _ _).mp hm with ⟨_, h2⟩ | ⟨h1, h2⟩
        · exact absurd h2 (by simp)
        · exact Or.inr (LeafIn.deeper h2 hq')
    | cons q₀ rest =>
      rw [insertSegsD] at h
      split at h
      · rename_i cs' hl
        obtain ⟨cs'', hmap, rfl⟩ := Option.map_eq_some'.mp h
        have hwf' : WFE cs' := hwf.child (mem_of_lookupEntry_some hl)
        cases hleaf with
        | @here _ k hm =>
          rcases (mem_setEntry hwf.nodupKeys _ _).mp hm with ⟨_, h2⟩ | ⟨h1, h2⟩
          · exact absurd h2 (by simp)
          · exact Or.inr (LeafIn.here h2)
        | @deeper _ k c q' hm hq' =>
          rcases (mem_setEntry hwf.nodupKeys _ _).mp hm with ⟨h1, h2⟩ | ⟨h1, h2⟩
          · subst h1
            injection h2 with h2
            rw [h2] at hq'
            rcases ih cs' cs'' q' hwf' hmap hq' with h3 | h3
            · exact Or.inl (by rw [h3])
            · exact Or.inr (LeafIn.deeper (mem_of_lookupEntry_some hl) h3)
          · exact Or.inr (LeafIn.deeper h2 hq')
      · exact absurd h (by simp)
      · rename_i hl
        obtain ⟨cs'', hmap, rfl⟩ := Option.map_eq_some'.mp h
        cases hleaf with
        | @here _ k hm =>
          rcases (mem_setEntry hwf.nodupKeys _ _).mp hm with ⟨_, h2⟩ | ⟨h1, h2⟩
          · exact absurd h2 (by simp)
          · exact Or.inr (LeafIn.here h2)
        | @deeper _ k c q' hm hq' =>
          rcases (mem_setEntry hwf.nodupKeys _ _).mp hm with ⟨h1, h2⟩ | ⟨h1, h2⟩
          · subst h1
            injection h2 with h2
            rw [h2] at hq'
            rcases ih [] cs'' q' WFE_nil hmap hq' with h3 | h3
            · exact Or.inl (by rw [h3])
            · exact absurd h3 (not_leafIn_nil _)
          · exact Or.inr (LeafIn.deeper h2 hq')


theorem insert_persist :
    ∀ (parts : List String) (cs cs₂ : List (String × Node)) (q : List String),
      WFE cs → insertSegsD cs parts = some cs₂ → LeafIn cs q →
      ¬ Below parts q → LeafIn cs₂ q := by
  intro parts
  induction parts with
  | nil => intro cs cs₂ q _ h _ _; simp [insertSegsD] at h
  | cons p tail ih =>
    intro cs cs₂ q hwf h hleaf hnb
    cases tail with
    | nil =>
      rw [insertSegsD] at h
      injection h with h
      subst h
      cases hleaf with
      | @here _ k hm =>
        by_cases hk : k = p
        · subst hk
          exact LeafIn.here ((mem_setEntry hwf.nodupKeys k Node.file).mpr (Or.inl ⟨rfl, rfl⟩))
        · exact LeafIn.here ((mem_setEntry hwf.nodupKeys k Node.file).mpr (Or.inr ⟨hk, hm⟩))
      | @deeper _ k c q' hm hq' =>
        by_cases hk : k = p
        · subst hk
          exfalso
          apply hnb
          refine ⟨?_, q', rfl⟩
          intro hcon
          injection hcon with _ hcon
          exact hq'.ne_nil hcon.symm
        · exact LeafIn.deeper
            ((mem_setEntry hwf.nodupKeys k (Node.dir c)).mpr (Or.inr ⟨hk, hm⟩)) hq'
    | cons q₀ rest =>
      rw [insertSegsD] at h
      split at h
      · rename_i cs' hl
        obtain ⟨cs'', hmap, rfl⟩ := Option.map_eq_some'.mp h
        have hwf' : WFE cs' := hwf.child (mem_of_lookupEntry_some hl)
        cases hleaf with
        | @here _ k hm =>
          by_cases hk : k = p
          · subst hk
            rw [lookupEntry_some_of_mem hwf.nodupKeys hm] at hl
            exact absurd hl (by simp)
          · exact LeafIn.here
              ((mem_setEntry hwf.nodupKeys k Node.file).mpr (Or.inr ⟨hk, hm⟩))
        | @deeper _ k c q' hm hq' =>
          by_cases hk : k = p
          · subst hk
            have hcc : cs' = c := by
              have h5 := lookupEntry_some_of_mem hwf.nodupKeys hm
              rw [hl] at h5
              injection h5 with h5
              injection h5
            subst hcc
            have hq'' : LeafIn cs'' q' := by
              apply ih cs' cs'' q' hwf' hmap hq'
              intro hb
              exact hnb (below_cons_of k hb)
            exact LeafIn.deeper
              ((mem_setEntry hwf.nodupKeys k (Node.dir cs'')).mpr (Or.inl ⟨rfl, rfl⟩)) hq''
          · exact LeafIn.deeper
              ((mem_setEntry hwf.nodupKeys k (Node.dir c)).mpr (Or.inr ⟨hk, hm⟩)) hq'
      · exact absurd h (by simp)
      · rename_i hl
        obtain ⟨cs'', hmap, rfl⟩ := Option.map_eq_some'.mp h
        have hnotkey : p ∉ cs.map Prod.fst := lookupEntry_none_iff.mp hl
        cases hleaf with
        | @here _ k hm =>
          by_cases hk : k = p
          · subst hk
            exact absurd (List.mem_map.mpr ⟨(k, Node.file), hm, rfl⟩) hnotkey
          · exact LeafIn.here
              ((mem_setEntry hwf.nodupKeys k Node.file).mpr (Or.inr ⟨hk, hm⟩))
        | @deeper _ k c q' hm hq' =>
          by_cases hk : k = p
          · subst hk
            exact absurd (List.mem_map.mpr ⟨(k, Node.dir c), hm, rfl⟩) hnotkey
          · exact LeafIn.deeper
              ((mem_setEntry hwf.nodupKeys k (Node.dir c)).mpr (Or.inr ⟨hk, hm⟩)) hq'


theorem insert_blocked :
    ∀ (q : List String) (cs : List (String × Node)) (parts : List String),
      WFE cs → LeafIn cs q → Below q parts → insertSegsD cs parts = none := by
  intro q
  induction q with
  | nil => intro cs parts _ hleaf _; exact absurd rfl hleaf.ne_nil
  | cons k q' ih =>
    intro cs parts hwf hleaf hb
    obtain ⟨hne, t, ht⟩ := hb
    have htne : t ≠ [] := by
      rintro rfl
      exact hne (by simpa using ht)
    subst ht
    cases hleaf with
    | here hm =>
      rcases t with _ | ⟨t₀, t₁⟩
      · exact absurd rfl htne
      · rw [List.cons_append, List.nil_append, insertSegsD,
          lookupEntry_some_of_mem hwf.nodupKeys hm]
    | @deeper _ _ c _ hm hq' =>
      rcases hq'' : q' with _ | ⟨a, q₂⟩
      · exact absurd (hq'' ▸ hq'.ne_nil) (by simp)
      · subst hq''
        have hnone : insertSegsD c ((a :: q₂) ++ t) = none := by
          refine ih c ((a :: q₂) ++ t) (hwf.child hm) hq' ⟨?_, t, rfl⟩
          intro hcon
          have := congrArg List.length hcon
          rw [List.length_append] at this
          have ht0 : 0 < t.length := List.length_pos.mpr htne
          omega
        rw [List.cons_append] at hnone
        rw [List.cons_append, List.cons_append, insertSegsD,
          lookupEntry_some_of_mem hwf.nodupKeys hm]
        show Option.map (fun cs'' => setEntry cs k (Node.dir cs''))
          (insertSegsD c (a :: (q₂ ++ t))) = none
        rw [hnone]
        rfl

theorem insert_success :
    ∀ (parts : List String) (cs : List (String × Node)),
      parts ≠ [] → WFE cs → (∀ q, LeafIn cs q → ¬ Below q parts) →
      ∃ cs₂, insertSegsD cs parts = some cs₂ := by
  intro parts
  induction parts with
  | nil => intro cs h _ _; exact absurd rfl h
  | cons p tail ih =>
    intro cs _ hwf hnb
    cases tail with
    | nil => exact ⟨setEntry cs p Node.file, by rw [insertSegsD]⟩
    | cons q₀ rest =>
      rcases hl : lookupEntry cs p with _ | v
      · obtain ⟨cs'', hmap⟩ := ih [] (by simp) WFE_nil
          (fun q hq => absurd hq (not_leafIn_nil q))
        refine ⟨setEntry cs p (Node.dir cs''), ?_⟩
        rw [insertSegsD, hl]
        show Option.map (fun cs'' => setEntry cs p (Node.dir cs''))
          (insertSegsD [] (q₀ :: rest)) = _
        rw [hmap]
        rfl
      · cases v with
        | file =>
          exfalso
          apply hnb [p] (LeafIn.here (mem_of_lookupEntry_some hl))
          refine ⟨?_, q₀ :: rest, rfl⟩
          simp
        | dir cs' =>
          have hwf' : WFE cs' := hwf.child (mem_of_lookupEntry_some hl)
          have hside : ∀ q', LeafIn cs' q' → ¬ Below q' (q₀ :: rest) := by
            intro q' hq' hb
            exact hnb (p :: q') (LeafIn.deeper (mem_of_lookupEntry_some hl) hq')
              (below_cons_of p hb)
          obtain ⟨cs'', hmap⟩ := ih cs' (by simp) hwf' hside
          refine ⟨setEntry cs p (Node.dir cs''), ?_⟩
          rw [insertSegsD, hl]
          show Option.map (fun cs'' => setEntry cs p (Node.dir cs''))
            (insertSegsD cs' (q₀ :: rest)) = _
          rw [hmap]
          rfl


theorem fold_success :
    ∀ (l : List String) (cs : List (String × Node)), WFE cs →
      l.Pairwise (fun p q =>
        ¬ Below (pathSegs p) (pathSegs q) ∧ ¬ Below (pathSegs q) (pathSegs p)) →
      (∀ p ∈ l, ∀ q, LeafIn cs q →
        ¬ Below q (pathSegs p) ∧ ¬ Below (pathSegs p) q) →
      ∃ cs₂, foldIns cs l = some cs₂ ∧ WFE cs₂
        ∧ (∀ q, LeafIn cs₂ q ↔ (∃ p ∈ l, q = pathSegs p) ∨ LeafIn cs q) := by
  intro l
  induction l with
  | nil =>
    intro cs hwf _ _
    exact ⟨cs, rfl, hwf, by simp⟩
  | cons p l' ih =>
    intro cs hwf hpw hcross
    obtain ⟨cs', hins⟩ := insert_success (pathSegs p) cs (pathSegs_ne_nil p) hwf
      (fun q hq => (hcross p (List.mem_cons_self _ _) q hq).1)
    have hwf' := insert_wfe _ cs cs' hwf hins
    have hleafp : LeafIn cs' (pathSegs p) :=
      insert_adds _ cs cs' (pathSegs_ne_nil p) hwf hins
    have hdesc : ∀ q, LeafIn cs' q ↔ q = pathSegs p ∨ LeafIn cs q := by
      intro q
      constructor
      · exact insert_leaf_src _ cs cs' q hwf hins
      · rintro (rfl | hq)
        · exact hleafp
        · exact insert_persist _ cs cs' q hwf hins hq
            (hcross p (List.mem_cons_self _ _) q hq).2
    have hhead := (List.pairwise_cons.mp hpw).1
    have hpw' := (List.pairwise_cons.mp hpw).2
    have hcross' : ∀ x ∈ l', ∀ q, LeafIn cs' q →
        ¬ Below q (pathSegs x) ∧ ¬ Below (pathSegs x) q := by
      intro x hx q hq
      rcases (hdesc q).mp hq with rfl | hq₂
      · exact ⟨(hhead x hx).1, (hhead x hx).2⟩
      · exact hcross x (List.mem_cons_of_mem _ hx) q hq₂
    obtain ⟨cs₂, hfold, hwf₂, hdesc₂⟩ := ih cs' hwf' hpw' hcross'
    refine ⟨cs₂, ?_, hwf₂, ?_⟩
    · rw [foldIns, hins]
      exact hfold
    · intro q
      rw [hdesc₂ q, hdesc q]
      constructor
      · rintro (⟨x, hx, rfl⟩ | rfl | hq)
        · exact Or.inl ⟨x, List.mem_cons_of_mem _ hx, rfl⟩
        · exact Or.inl ⟨p, List.mem_cons_self _ _, rfl⟩
        · exact Or.inr hq
      · rintro (⟨x, hx, rfl⟩ | hq)
        · rcases List.mem_cons.mp hx with rfl | hx
          · exact Or.inr (Or.inl rfl)
          · exact Or.inl ⟨x, hx, rfl⟩
        · exact Or.inr (Or.inr hq)

theorem fold_blocked_tail (p q : String) :
    ∀ (l : List String) (cs : List (String × Node)),
      WFE cs → LeafIn cs (pathSegs p) → q ∈ l → (∀ x ∈ l, strLe p x) →
      Below (pathSegs p) (pathSegs q) → foldIns cs l = none := by
  intro l
  induction l with
  | nil => intro cs _ _ hq _ _; simp at hq
  | cons x l' ih =>
    intro cs hwf hleaf hq hlow hb
    rcases hins : insertSegsD cs (pathSegs x) with _ | cs'
    · rw [foldIns, hins]
    · by_cases hxq : x = q
      · subst hxq
        rw [insert_blocked _ cs _ hwf hleaf hb] at hins
        exact absurd hins (by simp)
      · have hq' : q ∈ l' := by
          rcases List.mem_cons.mp hq with h | h
          · exact absurd h.symm hxq
          · exact h
        have hnpx : ¬ Below (pathSegs x) (pathSegs p) := by
          intro hbx
          exact below_strLe_absurd x p hbx (hlow x (List.mem_cons_self _ _))
        have hleaf' : LeafIn cs' (pathSegs p) :=
          insert_persist _ cs cs' _ hwf hins hleaf hnpx
        have hwf' := insert_wfe _ cs cs' hwf hins
        rw [foldIns, hins]
        show foldIns cs' l' = none
        exact ih cs' hwf' hleaf' hq'
          (fun y hy => hlow y (List.mem_cons_of_mem _ hy)) hb

theorem fold_blocked (p q : String) (hb : Below (pathSegs p) (pathSegs q)) :
    ∀ (l : List String) (cs : List (String × Node)),
      l.Sorted strLe → WFE cs → p ∈ l → q ∈ l → foldIns cs l = none := by
  intro l
  induction l with
  | nil => intro cs _ _ hp _; simp at hp
  | cons x l' ih =>
    intro cs hsort hwf hp hq
    obtain ⟨hlow, hsort'⟩ := List.sorted_cons.mp hsort
    rcases hins : insertSegsD cs (pathSegs x) with _ | cs'
    · rw [foldIns, hins]
    · by_cases hxp : x = p
      · subst hxp
        have hleaf : LeafIn cs' (pathSegs x) :=
          insert_adds _ cs cs' (pathSegs_ne_nil x) hwf hins
        have hq' : q ∈ l' := by
          rcases List.mem_cons.mp hq with h | h
          · subst h
            exact absurd rfl hb.1
          · exact h
        rw [foldIns, hins]
        show foldIns cs' l' = none
        exact fold_blocked_tail x q l' cs' (insert_wfe _ cs cs' hwf hins) hleaf hq' hlow hb
      · have hp' : p ∈ l' := by
          rcases List.mem_cons.mp hp with h | h
          · exact absurd h.symm hxp
          · exact h
        by_cases hxq : x = q
        · subst hxq
          exact (below_strLe_absurd p x hb (hlow p hp')).elim
        · have hq' : q ∈ l' := by
            rcases List.mem_cons.mp hq with h | h
            · exact absurd h.symm hxq
            · exact h
          rw [foldIns, hins]
          show foldIns cs' l' = none
          exact ih cs' hsort' (insert_wfe _ cs cs' hwf hins) hp' hq'

/-! ## Claim theorems -/

/-- C1 (counterexample): the claim classifies every 2xx status as
`Success`, but `request_artifact_in_reposilite` treats status 201 as a
failure with detail "HTTP 201" — only exactly 200 is `Success`. -/
theorem c1_counterexample :
    specClassifyC1 (.status 201) = ProbeOutcome.success
    ∧ probeOutcome (.status 201) = ProbeOutcome.otherError "HTTP 201"
    ∧ probeOutcome (.status 201) ≠ specClassifyC1 (.status 201)
    ∧ request_artifact_in_reposilite (.status 201) = (false, "HTTP 201") :=
  ⟨by decide, by decide, by decide, by decide⟩

/-- C1 (amended): a probe outcome is classified as: status exactly 200 →
Success; 404 → NotFound; 401 → Unauthorized; 403 → Forbidden; any other
status (2xx included) → OtherError with the code; timeout → Timeout;
other transport failure → OtherError with the message.  A 404 response
increments the failed counter and not the succeeded one; a 200 response
increments the succeeded counter and not the failed one. -/
theorem c1_probe_classification :
    (∀ r, probeOutcome r = amendedClassifyC1 r)
    ∧ (∀ s p, (process_asset_paths s [(p, .status 404)]).failed_count = s.failed_count + 1
        ∧ (process_asset_paths s [(p, .status 404)]).success_count = s.success_count)
    ∧ (∀ s p, (process_asset_paths s [(p, .status 200)]).success_count = s.success_count + 1
        ∧ (process_asset_paths s [(p, .status 200)]).failed_count = s.failed_count) := by
  refine ⟨fun r => ?_, fun s p => ?_, fun s p => ?_⟩
  · cases r with
    | status n =>
      unfold probeOutcome amendedClassifyC1
      split <;> simp_all
    | timeoutExn => rfl
    | requestExn m => rfl
  · constructor <;>
      simp [process_asset_paths, bumpOutcome, bumpTotal, request_artifact_in_reposilite]
  · constructor <;>
      simp [process_asset_paths, bumpOutcome, bumpTotal, request_artifact_in_reposilite]

/-- C2 (counterexample): in `sync_all_artifacts` the merged path list is
`list(set(a + b))`; two enumerations that are both valid set behaviours
(same distinct elements, no duplicates) produce different output orders
on the same two input sequences, so the output order is not a function
of the input sequences. -/
theorem c2_counterexample :
    SetEnumSpec pySetOrderA ∧ SetEnumSpec pySetOrderB
    ∧ combineBasic pySetOrderA ["a"] ["b"] ≠ combineBasic pySetOrderB ["a"] ["b"] :=
  ⟨fun l => ⟨l.nodup_dedup, fun x => List.mem_dedup⟩,
    fun l => ⟨List.nodup_reverse.mpr l.nodup_dedup,
      fun x => List.mem_reverse.trans List.mem_dedup⟩,
    by decide⟩

/-- C2 (amended): in the enhanced merge (`sync_all_artifacts_enhanced`)
a record captured from the earlier source is never overwritten — the
record found for a path present in the first source is its first
occurrence there — and the merge is a deterministic function of the
input sequences; in the basic merge (`sync_all_artifacts`) the
deduplicated path set is determined by the inputs, but its order depends
on the set enumeration. -/
theorem c2_merge_determinism :
    (∀ (xs ys : List DlRec) (q : String), q ∈ xs.map DlRec.path →
        (dedupeByPath (xs ++ ys)).find? (fun r => r.path == q)
          = xs.find? (fun r => r.path == q))
    ∧ (∀ (e₁ e₂ : List String → List String), SetEnumSpec e₁ → SetEnumSpec e₂ →
        ∀ (xs ys : List String),
          (combineBasic e₁ xs ys).toFinset = (combineBasic e₂ xs ys).toFinset) := by
  constructor
  · intro xs ys q hqx
    rw [dedupeByPath, dedupeGo_find _ _ q (by simp)]
    apply find?_append_of_isSome
    rw [List.find?_isSome]
    obtain ⟨r, hr, hrq⟩ := List.mem_map.mp hqx
    exact ⟨r, hr, by simp [hrq]⟩
  · intro e₁ e₂ h₁ h₂ xs ys
    ext x
    simp only [List.mem_toFinset, combineBasic]
    rw [(h₁ (xs ++ ys)).2 x, (h₂ (xs ++ ys)).2 x]

/-- C2 (witness): the amended theorem applied at concrete inputs. -/
theorem c2_merge_determinism_witness :
    (dedupeByPath ([⟨"p", "u1", "", 1, none⟩] ++ [⟨"p", "u2", "", 2, none⟩])).find?
        (fun r => r.path == "p")
      = [(⟨"p", "u1", "", 1, none⟩ : DlRec)].find? (fun r => r.path == "p")
    ∧ (combineBasic pySetOrderA ["a"] ["b"]).toFinset
      = (combineBasic pySetOrderA ["a"] ["b"]).toFinset :=
  ⟨c2_merge_determinism.1 [⟨"p", "u1", "", 1, none⟩] [⟨"p", "u2", "", 2, none⟩] "p"
      (by decide),
    c2_merge_determinism.2 pySetOrderA pySetOrderA
      (fun l => ⟨l.nodup_dedup, fun x => List.mem_dedup⟩)
      (fun l => ⟨l.nodup_dedup, fun x => List.mem_dedup⟩) ["a"] ["b"]⟩

/-- C3: the Reconciler's deduplicated output over two record sequences
has exactly M + A + B records, where M counts the shared distinct paths
and A, B the source-exclusive distinct paths; and for every shared path
the record kept is the first occurrence in the earlier source. -/
theorem c3_reconciler_counts :
    ∀ (xs ys : List DlRec),
      (dedupeByPath (xs ++ ys)).length
        = ((xs.map DlRec.path).toFinset ∩ (ys.map DlRec.path).toFinset).card
          + ((xs.map DlRec.path).toFinset \ (ys.map DlRec.path).toFinset).card
          + ((ys.map DlRec.path).toFinset \ (xs.map DlRec.path).toFinset).card
      ∧ ∀ q, q ∈ xs.map DlRec.path → q ∈ ys.map DlRec.path →
          (dedupeByPath (xs ++ ys)).find? (fun r => r.path == q)
            = xs.find? (fun r => r.path == q) := by
  intro xs ys
  constructor
  · rw [dedupeByPath, dedupeGo_length]
    have hU : ((xs ++ ys).map DlRec.path).toFinset
        = (xs.map DlRec.path).toFinset ∪ (ys.map DlRec.path).toFinset := by
      simp
    rw [hU]
    simp only [List.toFinset_nil, Finset.sdiff_empty]
    have e1 := Finset.card_union_add_card_inter
      (xs.map DlRec.path).toFinset (ys.map DlRec.path).toFinset
    have e2 := Finset.card_sdiff_add_card_inter
      (xs.map DlRec.path).toFinset (ys.map DlRec.path).toFinset
    have e3 := Finset.card_sdiff_add_card_inter
      (ys.map DlRec.path).toFinset (xs.map DlRec.path).toFinset
    rw [Finset.inter_comm] at e3
    omega
  · intro q hqx hqy
    rw [dedupeByPath, dedupeGo_find _ _ q (by simp)]
    apply find?_append_of_isSome
    rw [List.find?_isSome]
    obtain ⟨r, hr, hrq⟩ := List.mem_map.mp hqx
    exact ⟨r, hr, by simp [hrq]⟩

/-- C3 (witness): the counting and first-seen statements at concrete
inputs (one shared path, one exclusive on each side). -/
theorem c3_reconciler_counts_witness :
    (dedupeByPath ([⟨"s", "u1", "", 1, none⟩, ⟨"x", "u2", "", 2, none⟩]
        ++ [⟨"s", "u3", "", 3, none⟩, ⟨"y", "u4", "", 4, none⟩])).length
      = ((([⟨"s", "u1", "", 1, none⟩, ⟨"x", "u2", "", 2, none⟩] :
            List DlRec).map DlRec.path).toFinset
          ∩ (([⟨"s", "u3", "", 3, none⟩, ⟨"y", "u4", "", 4, none⟩] :
            List DlRec).map DlRec.path).toFinset).card
        + ((([⟨"s", "u1", "", 1, none⟩, ⟨"x", "u2", "", 2, none⟩] :
            List DlRec).map DlRec.path).toFinset
          \ (([⟨"s", "u3", "", 3, none⟩, ⟨"y", "u4", "", 4, none⟩] :
            List DlRec).map DlRec.path).toFinset).card
        + ((([⟨"s", "u3", "", 3, none⟩, ⟨"y", "u4", "", 4, none⟩] :
            List DlRec).map DlRec.path).toFinset
          \ (([⟨"s", "u1", "", 1, none⟩, ⟨"x", "u2", "", 2, none⟩] :
            List DlRec).map DlRec.path).toFinset).card
    ∧ (dedupeByPath ([⟨"s", "u1", "", 1, none⟩, ⟨"x", "u2", "", 2, none⟩]
        ++ [⟨"s", "u3", "", 3, none⟩, ⟨"y", "u4", "", 4, none⟩])).find?
          (fun r => r.path == "s")
      = [⟨"s", "u1", "", 1, none⟩, ⟨"x", "u2", "", 2, none⟩].find?
          (fun r => r.path == "s") :=
  ⟨(c3_reconciler_counts [⟨"s", "u1", "", 1, none⟩, ⟨"x", "u2", "", 2, none⟩]
      [⟨"s", "u3", "", 3, none⟩, ⟨"y", "u4", "", 4, none⟩]).1,
    (c3_reconciler_counts [⟨"s", "u1", "", 1, none⟩, ⟨"x", "u2", "", 2, none⟩]
      [⟨"s", "u3", "", 3, none⟩, ⟨"y", "u4", "", 4, none⟩]).2 "s"
      (by decide) (by decide)⟩

/-- C4: over a synthetic paginated source — token-chained pages followed
by a final token-less page, each served item carrying a truthy path —
the flat-asset adapter's output length equals the sum of the per-page
item counts; pagination stops exactly at the token-less page (responses
after it are never consumed); and an error page at any point ends the
loop with the accumulated partial result returned. -/
theorem c4_pagination :
    ∀ (pages : List (List RawAsset × String)) (last : List RawAsset)
      (junk : List (PageResp RawAsset)),
      (∀ pg ∈ pages, ∀ a ∈ pg.1, truthyStr a.path = true) →
      (∀ a ∈ last, truthyStr a.path = true) →
      (get_all_asset_paths_from_nexus
          ((pages.map fun pg => PageResp.ok pg.1 (some pg.2))
            ++ PageResp.ok last none :: junk)).length
        = (pages.map fun pg => pg.1.length).sum + last.length
      ∧ get_all_asset_paths_from_nexus
          ((pages.map fun pg => PageResp.ok pg.1 (some pg.2))
            ++ PageResp.ok last none :: junk)
        = get_all_asset_paths_from_nexus
          ((pages.map fun pg => PageResp.ok pg.1 (some pg.2)) ++ [PageResp.ok last none])
      ∧ ∀ (err : PageResp RawAsset), isErrPage err = true →
          ∀ (junk₂ : List (PageResp RawAsset)),
          get_all_asset_paths_from_nexus
            ((pages.map fun pg => PageResp.ok pg.1 (some pg.2)) ++ err :: junk₂)
          = (pages.map fun pg => extractAssetPaths pg.1).flatten := by
  intro pages last junk hpg hlast
  unfold get_all_asset_paths_from_nexus
  refine ⟨?_, ?_, ?_⟩
  · rw [runPages_okPages, runPages_lastPage]
    simp only [List.length_append, List.length_flatten]
    rw [extractAssetPaths_length last hlast]
    congr 1
    · induction pages with
      | nil => rfl
      | cons pg pgs ih =>
        simp only [List.map_cons, List.map_map, List.sum_cons] at ih ⊢
        rw [extractAssetPaths_length pg.1 (hpg pg (List.mem_cons_self _ _))]
        have := ih (fun q hq => hpg q (List.mem_cons_of_mem _ hq))
        simp_all
  · rw [runPages_okPages, runPages_lastPage, runPages_okPages, runPages_lastPage]
  · intro err herr junk₂
    rw [runPages_okPages, runPages_errPage _ err herr]
    simp

/-- C4 (witness): two full pages and a token-less last page, then an
error run returning the partial result. -/
theorem c4_pagination_witness :
    (get_all_asset_paths_from_nexus
        ((([([(⟨some "a/1.jar", none, none, none⟩ : RawAsset)], "t1")] : List (List RawAsset × String)).map
            fun pg => PageResp.ok pg.1 (some pg.2))
          ++ PageResp.ok [(⟨some "b/2.jar", none, none, none⟩ : RawAsset)] none
            :: [PageResp.badJson])).length
      = (([([(⟨some "a/1.jar", none, none, none⟩ : RawAsset)], "t1")] : List (List RawAsset × String)).map fun pg => pg.1.length).sum
        + [(⟨some "b/2.jar", none, none, none⟩ : RawAsset)].length
    ∧ get_all_asset_paths_from_nexus
        ((([([(⟨some "a/1.jar", none, none, none⟩ : RawAsset)], "t1")] : List (List RawAsset × String)).map
            fun pg => PageResp.ok pg.1 (some pg.2)) ++ PageResp.httpError 500 :: [])
      = (([([(⟨some "a/1.jar", none, none, none⟩ : RawAsset)], "t1")] : List (List RawAsset × String)).map
          fun pg => extractAssetPaths pg.1).flatten :=
  ⟨(c4_pagination ([([(⟨some "a/1.jar", none, none, none⟩ : RawAsset)], "t1")] : List (List RawAsset × String))
      [(⟨some "b/2.jar", none, none, none⟩ : RawAsset)] [PageResp.badJson]
      (by decide) (by decide)).1,
    (c4_pagination ([([(⟨some "a/1.jar", none, none, none⟩ : RawAsset)], "t1")] : List (List RawAsset × String))
      [(⟨some "b/2.jar", none, none, none⟩ : RawAsset)] [PageResp.badJson]
      (by decide) (by decide)).2.2 (PageResp.httpError 500) (by decide) []⟩

/-- C5 (counterexample): for the path "a/b//x.jar" — four segments, a
non-empty group "a" — the claim's rule yields the coordinate
("a", "b", ""), but the code yields no coordinate because the version
segment is empty. -/
theorem c5_counterexample :
    specGavClaimC5 "a/b//x.jar" = some ("a", "b", "")
    ∧ gavFromPath "a/b//x.jar" = none
    ∧ gavFromPath "a/b//x.jar" ≠ specGavClaimC5 "a/b//x.jar" :=
  ⟨by decide, by decide, by decide⟩

/-- C5 (amended): the path-segmentation fallback fails for fewer than 4
segments and otherwise yields (group = segments[0:-3] joined with '.',
artifact = segments[-3], version = segments[-2]) — failing whenever the
group, the artifact or the version is empty; the example path resolves
to ("com.acme.widgets", "widget-core", "1.2.3"). -/
theorem c5_gav_fallback :
    (∀ p, gavFromPath p = specGavAmendedC5 p)
    ∧ gavFromPath "com/acme/widgets/widget-core/1.2.3/widget-core-1.2.3.jar"
        = some ("com.acme.widgets", "widget-core", "1.2.3")
    ∧ (∀ p, (pathSegs p).length < 4 → gavFromPath p = none) := by
  have key : ∀ p, gavFromPath p = specGavAmendedC5 p := by
    intro p
    by_cases hp : p = ""
    · subst hp; decide
    · unfold gavFromPath specGavAmendedC5
      simp only [hp, if_false]
      rcases Nat.lt_or_ge (pathSegs p).length 4 with h4 | h4
      · simp [h4, Nat.not_le.mpr h4]
      · simp only [h4, if_true, Nat.not_lt.mpr h4, if_false]
        by_cases hg : String.intercalate "."
            ((pathSegs p).take ((pathSegs p).length - 3)) = "" <;>
          by_cases ha : (pathSegs p).getD ((pathSegs p).length - 3) "" = "" <;>
            by_cases hv : (pathSegs p).getD ((pathSegs p).length - 2) "" = "" <;>
              simp_all
  refine ⟨key, by decide, fun p h => ?_⟩
  rw [key p]
  unfold specGavAmendedC5
  simp [h]

/-- C5 (witness): a three-segment path yields no coordinate. -/
theorem c5_gav_fallback_witness :
    (pathSegs "a/b").length < 4 ∧ gavFromPath "a/b" = none :=
  ⟨by decide, c5_gav_fallback.2.2 "a/b" (by decide)⟩

/-- C6: when the destination file already exists with byte length equal
to the record's declared size and that size is positive,
`download_single_asset` returns the already-present outcome and issues
no download request. -/
theorem c6_already_present :
    ∀ (preserve : Bool) (fs : String → Option Nat) (net : DlResp) (base : String)
      (r : DlRec),
      fs (destPath preserve base r.path) = some r.size → 0 < r.size →
      download_single_asset preserve fs net base r = (DlOutcome.alreadyExists, false) := by
  intro preserve fs net base r hfs hpos
  unfold download_single_asset
  simp [hfs, hpos]

/-- C6 (witness): a concrete filesystem holding the destination at the
declared size short-circuits without a request. -/
theorem c6_already_present_witness :
    (fun q => if q = "/export/com/acme/a/1.0/a-1.0.jar" then some 5 else none)
        (destPath true "/export" "com/acme/a/1.0/a-1.0.jar") = some 5
    ∧ 0 < (5 : Nat)
    ∧ download_single_asset true
        (fun q => if q = "/export/com/acme/a/1.0/a-1.0.jar" then some 5 else none)
        (DlResp.exc "unused") "/export" ⟨"com/acme/a/1.0/a-1.0.jar", "u", "", 5, none⟩
        = (DlOutcome.alreadyExists, false) :=
  ⟨by decide, by decide,
    c6_already_present true
      (fun q => if q = "/export/com/acme/a/1.0/a-1.0.jar" then some 5 else none)
      (DlResp.exc "unused") "/export" ⟨"com/acme/a/1.0/a-1.0.jar", "u", "", 5, none⟩
      (by decide) (by decide)⟩

/-- C7 (counterexample): the claim's invariant — succeeded + failed (+
already-present) at most the records processed so far — fails at a
reachable interruption point: `_process_asset_paths` increments the
outcome counter before `total_artifacts`, so a `KeyboardInterrupt`
delivered between the two statements observes succeeded + failed =
total + 1. -/
theorem c7_counterexample :
    ∃ s' ∈ observedStats initStats [("com/a/1/x.jar", ProbeResp.status 200)],
      s'.total_artifacts < s'.success_count + s'.failed_count := by
  decide

/-- C7 (amended): at every record boundary of `_process_asset_paths` the
counters satisfy succeeded + failed = total exactly, and at *every*
interruptible point — including between the two increments — succeeded +
failed exceeds total by at most one; the summary reported when an
interrupt lands at observation point k is the statistics value at that
point and satisfies the same bound. -/
theorem c7_stats_invariant :
    ∀ (records : List (String × ProbeResp)),
      (∀ s' ∈ boundaryStats initStats records,
          s'.success_count + s'.failed_count = s'.total_artifacts)
      ∧ (∀ s' ∈ observedStats initStats records,
          s'.success_count + s'.failed_count ≤ s'.total_artifacts + 1)
      ∧ (∀ k : Nat,
          ((observedStats initStats records).getD k initStats).success_count
            + ((observedStats initStats records).getD k initStats).failed_count
          ≤ ((observedStats initStats records).getD k initStats).total_artifacts + 1) := by
  intro records
  obtain ⟨hb, ho⟩ := stats_invariant_aux records initStats rfl
  refine ⟨hb, ho, fun k => ?_⟩
  by_cases hk : k < (observedStats initStats records).length
  · rw [List.getD_eq_getElem?_getD, List.getElem?_eq_getElem hk]
    exact ho _ (List.getElem_mem hk)
  · rw [List.getD_eq_getElem?_getD, List.getElem?_eq_none (Nat.le_of_not_lt hk)]
    simp [initStats]

/-- C7 (witness): the boundary equality discharged at a concrete
reachable state of a one-record run. -/
theorem c7_stats_invariant_witness :
    (⟨1, 0, 1, []⟩ : SyncStats) ∈
        boundaryStats initStats [("com/a/1/x.jar", ProbeResp.status 200)]
    ∧ (1 : Nat) + 0 = 1 :=
  ⟨by decide,
    (c7_stats_invariant [("com/a/1/x.jar", ProbeResp.status 200)]).1
      ⟨1, 0, 1, []⟩ (by decide)⟩

/-- C8: the Validator is a deterministic single pass — two runs over the
same paths whose probes agree on those paths produce identical missing
lists (and identical error lists), and each run probes exactly the input
paths, once each, in order. -/
theorem c8_validator_idempotent :
    ∀ (probe₁ probe₂ : String → VResp) (paths : List String),
      (∀ p ∈ paths, probe₁ p = probe₂ p) →
      (validate_sync_completeness probe₁ paths).1
          = (validate_sync_completeness probe₂ paths).1
      ∧ (validate_sync_completeness probe₁ paths).2.1
          = (validate_sync_completeness probe₂ paths).2.1
      ∧ (validate_sync_completeness probe₁ paths).2.2 = paths
      ∧ (validate_sync_completeness probe₂ paths).2.2 = paths := by
  intro probe₁ probe₂ paths hagree
  induction paths with
  | nil => exact ⟨rfl, rfl, rfl, rfl⟩
  | cons p ps ih =>
    have hps : ∀ q ∈ ps, probe₁ q = probe₂ q := fun q hq => hagree q (List.mem_cons_of_mem _ hq)
    obtain ⟨h1, h2, h3, h4⟩ := ih hps
    have hp : probe₁ p = probe₂ p := hagree p (List.mem_cons_self _ _)
    unfold validate_sync_completeness
    rw [hp]
    cases probe₂ p with
    | status n =>
      by_cases h404 : n = 404
      · simp [h404, h1, h2, h3, h4]
      · by_cases hn : n = 200 ∨ n = 304 <;> simp [h404, hn, h1, h2, h3, h4]
    | exc m => simp [h1, h2, h3, h4]

/-- C8 (witness): two identical-response runs over two concrete paths
yield the same missing list and probe exactly the input paths. -/
theorem c8_validator_idempotent_witness :
    (validate_sync_completeness (fun _ => VResp.status 200)
        ["com/a/1/x.jar", "com/a/1/y.jar"]).1
      = (validate_sync_completeness (fun _ => VResp.status 200)
        ["com/a/1/x.jar", "com/a/1/y.jar"]).1
    ∧ (validate_sync_completeness (fun _ => VResp.status 200)
        ["com/a/1/x.jar", "com/a/1/y.jar"]).2.2
      = ["com/a/1/x.jar", "com/a/1/y.jar"] :=
  ⟨(c8_validator_idempotent (fun _ => VResp.status 200) (fun _ => VResp.status 200)
      ["com/a/1/x.jar", "com/a/1/y.jar"] (fun _ _ => rfl)).1,
    (c8_validator_idempotent (fun _ => VResp.status 200) (fun _ => VResp.status 200)
      ["com/a/1/x.jar", "com/a/1/y.jar"] (fun _ _ => rfl)).2.2.1⟩

/-- C9: for every list of paths in which no path is a proper
'/'-delimited leading part of another, `build_tree_from_paths` returns a
tree whose terminal leaves are exactly the input paths (read as their
segment lists); and for every list containing both a path and a proper
'/'-extension of it, the build raises instead of returning a tree. -/
theorem c9_tree_builder :
    (∀ (paths : List String), NoNesting paths →
      ∃ cs, build_tree_from_paths paths = some cs
        ∧ ∀ q, LeafIn cs q ↔ ∃ p ∈ paths, q = pathSegs p)
    ∧ (∀ (paths : List String) (p r : String),
        p ∈ paths → (p ++ "/" ++ r) ∈ paths → build_tree_from_paths paths = none) := by
  constructor
  · intro paths hnn
    unfold NoNesting at hnn
    have hpw := (List.Perm.pairwise_iff (fun h => ⟨h.2, h.1⟩)
      (pySorted_perm paths)).mpr hnn
    obtain ⟨cs, hfold, _, hdesc⟩ := fold_success (pySorted paths) [] WFE_nil hpw
      (fun p _ q hq => absurd hq (not_leafIn_nil q))
    refine ⟨cs, hfold, fun q => ?_⟩
    rw [hdesc q]
    constructor
    · rintro (⟨p, hp, rfl⟩ | hq)
      · exact ⟨p, (pySorted_perm paths).mem_iff.mp hp, rfl⟩
      · exact absurd hq (not_leafIn_nil q)
    · rintro ⟨p, hp, rfl⟩
      exact Or.inl ⟨p, (pySorted_perm paths).mem_iff.mpr hp, rfl⟩
  · intro paths p r hp hq
    unfold build_tree_from_paths
    exact fold_blocked p (p ++ "/" ++ r) (below_of_slash_append p r) (pySorted paths) []
      (pySorted_sorted paths) WFE_nil
      ((pySorted_perm paths).mem_iff.mpr hp) ((pySorted_perm paths).mem_iff.mpr hq)

/-- C9 (witness): a nesting-free input builds a tree with exactly those
leaves; an input with a path and its proper extension raises. -/
theorem c9_tree_builder_witness :
    (∃ cs, build_tree_from_paths ["a/b/c.jar", "a/b/d.jar", "a/e.jar"] = some cs
      ∧ ∀ q, LeafIn cs q ↔ ∃ p ∈ ["a/b/c.jar", "a/b/d.jar", "a/e.jar"], q = pathSegs p)
    ∧ build_tree_from_paths ["a/b", "a/b/c"] = none :=
  ⟨c9_tree_builder.1 ["a/b/c.jar", "a/b/d.jar", "a/e.jar"] (by decide),
   c9_tree_builder.2 ["a/b", "a/b/c"] "a/b" "c" (by decide) (by decide)⟩

/-- C10: an asset whose record lacks a truthy downloadUrl or path is
dropped at discovery time: removing it from any page leaves the entire
enhanced pipeline — the export record set, the cache-warm request paths,
the validation probe paths and the statistics total — unchanged, for
both source APIs; and every record the collectors produce carries a
non-empty path and downloadUrl. -/
theorem c10_silent_drop :
    ∀ (a : RawAsset), (truthyStr a.path = false ∨ truthyStr a.downloadUrl = false) →
      (∀ (l₁ : List (PageResp RawAsset)) (pre post : List RawAsset) (tok : Option String)
          (l₂ : List (PageResp RawAsset)) (ys : List DlRec),
          enhancedPipeline
              (get_all_download_info_from_assets_api (l₁ ++ .ok (pre ++ a :: post) tok :: l₂)) ys
            = enhancedPipeline
              (get_all_download_info_from_assets_api (l₁ ++ .ok (pre ++ post) tok :: l₂)) ys)
      ∧ (∀ (l₁ : List (PageResp NxComponent)) (cpre cpost : List NxComponent)
          (g n v : String) (apre apost : List RawAsset) (tok : Option String)
          (l₂ : List (PageResp NxComponent)) (xs : List DlRec),
          enhancedPipeline xs (get_all_download_info_from_components_api
              (l₁ ++ .ok (cpre ++ ⟨g, n, v, apre ++ a :: apost⟩ :: cpost) tok :: l₂))
            = enhancedPipeline xs (get_all_download_info_from_components_api
              (l₁ ++ .ok (cpre ++ ⟨g, n, v, apre ++ apost⟩ :: cpost) tok :: l₂)))
      ∧ (∀ resps r, r ∈ get_all_download_info_from_assets_api resps →
          r.path ≠ "" ∧ r.downloadUrl ≠ "")
      ∧ (∀ resps r, r ∈ get_all_download_info_from_components_api resps →
          r.path ≠ "" ∧ r.downloadUrl ≠ "") := by
  intro a hbad
  refine ⟨?_, ?_, ?_, ?_⟩
  · intro l₁ pre post tok l₂ ys
    unfold get_all_download_info_from_assets_api
    rw [runPages_congr_mid _ _ _ _ _ _ (collectAssetItems_drop a hbad pre post)]
  · intro l₁ cpre cpost g n v apre apost tok l₂ xs
    unfold get_all_download_info_from_components_api
    rw [runPages_congr_mid _ _ _ _ _ _
      (collectComponentItems_drop a hbad cpre cpost g n v apre apost)]
  · intro resps r
    exact runPages_mem collectAssetItems _
      (fun its b hb => collectAssetItems_mem its b hb) resps r
  · intro resps r
    exact runPages_mem collectComponentItems _
      (fun its b hb => collectComponentItems_mem its b hb) resps r

/-- C10 (witness): a URL-less asset on the only page leaves the pipeline
exactly as if the asset had not been served. -/
theorem c10_silent_drop_witness :
    enhancedPipeline
        (get_all_download_info_from_assets_api
          [PageResp.ok [(⟨some "a/x.jar", none, none, none⟩ : RawAsset)] none]) []
      = enhancedPipeline (get_all_download_info_from_assets_api [PageResp.ok [] none]) [] := by
  have h := (c10_silent_drop ⟨some "a/x.jar", none, none, none⟩ (by decide)).1
    [] [] [] none [] []
  simpa using h

end MirrorExport
